import Mathlib

/-!
A verification development for `core/jni/android/graphics/TextLayoutCache.cpp`
(text layout and shaping engine: a size-accounted layout cache, a bidi run
pipeline and a complex-script shaping driver).

Modelling conventions.

* Machine floats (`jfloat`, `SkScalar`) are modelled exactly in 16.16
  fixed-point units: a float value `v` is represented by the integer
  `v * 65536`.  This is the exact-arithmetic idealization of the float
  computations (all laws stated about sums of advances are linear, so the
  global unit change is harmless, and "up to rounding tolerance" becomes
  plain equality).  `HBFixedToFloat` is then the identity unit change.
* `size_t` values are natural numbers; where the C code truncates a
  `size_t` difference to a 32-bit `int`, the embedding performs the
  truncation explicitly (`trunc32`).
* External collaborators (the ICU bidi resolver, the Harfbuzz script-run
  iterator plus `HB_ShapeItem`) are modelled as oracles: functions supplied
  as parameters that produce the data the library would return.  The engine
  code itself (run resolution, clipping, cluster aggregation, the cache) is
  translated directly from the source.
* Android's `Vector<T>` is a Lean `List`: `add` is append, `replaceAt` is
  `List.set`, `clear` is `[]`.
-/

namespace TextLayoutCacheModel

/-- Model of `jfloat`: a float value `v` is represented exactly by the
integer `v * 65536` (16.16 fixed point). -/
abbrev JFloat := Int

/-- Embeds `HBFixedToFloat`: converting an `HB_Fixed` (16.16) value into the
scaled float model is the identity unit change. -/
def hbFixedToFloat (x : Int) : JFloat := x

/-- Outcome of shaping one script run, as left in `mShaperItem` by
`shapeFontRun` (`item.pos`, `item.length`, `num_glyphs`, the glyph arrays and
`log_clusters`), together with the `baseGlyphCount` returned by
`shapeFontRun`.  `advances = none` models a NULL `advances` array. -/
structure ScriptRunResult where
  pos : Nat
  length : Nat
  numGlyphs : Nat
  glyphs : List Nat
  advances : Option (List Int)
  offsets : List (Int × Int)
  logClusters : List Nat
  baseGlyphCount : Nat
deriving Repr, DecidableEq

/-- Embeds the inner loop `for (j = cluster; j < clusterNext; j++) advance +=
HBFixedToFloat(mShaperItem.advances[j])` of `computeRunValues`. -/
def clusterAdvance (adv : List Int) (cluster clusterNext : Nat) : JFloat :=
  ((List.range (clusterNext - cluster)).map
    (fun j => hbFixedToFloat (adv.getD (cluster + j) 0))).sum

/-- Embeds the per-character cluster scan of `computeRunValues` (the loop
`for (i = 0; i < countScriptRun; i++)` maintaining `clusterStart`), returning
the list of `replaceAt` writes `(startScriptRun + clusterStart, advance)` it
performs, in order.  The fuel argument counts the remaining iterations
(`sr.length - i`), making the recursion structural. -/
def clusterWritesFrom (sr : ScriptRunResult) (adv : List Int) :
    Nat → Nat → Nat → List (Nat × JFloat)
  | 0, _, _ => []
  | fuel + 1, i, clusterStart =>
    let cluster := sr.logClusters.getD i 0
    let clusterNext := if i = sr.length - 1 then sr.numGlyphs
      else sr.logClusters.getD (i + 1) 0
    if cluster ≠ clusterNext then
      (sr.pos + clusterStart, clusterAdvance adv cluster clusterNext) ::
        clusterWritesFrom sr adv fuel (i + 1) (i + 1)
    else
      clusterWritesFrom sr adv fuel (i + 1) clusterStart

/-- Cluster writes of a whole script run (the scan started at `i = 0`,
`clusterStart = 0`). -/
def clusterWrites (sr : ScriptRunResult) (adv : List Int) : List (Nat × JFloat) :=
  clusterWritesFrom sr adv sr.length 0 0

/-- Embeds the glyph emission loop: `glyph = glyphBaseCount + (jchar)
mShaperItem.glyphs[(!isRTL) ? i : countGlyphs - 1 - i]`, truncated to a
`jchar`. -/
def emitGlyphs (sr : ScriptRunResult) (isRTL : Bool) : List Nat :=
  (List.range sr.numGlyphs).map (fun i =>
    (sr.baseGlyphCount + sr.glyphs.getD (if isRTL then sr.numGlyphs - 1 - i else i) 0) % 65536)

/-- Embeds the position emission loop of `computeRunValues`: starting from
`x = totalAdvance`, emit `(x + xo + yo * skewX, yo)` per glyph and advance
`x` by the glyph's advance.  In scaled units the product `yo * skewX` must be
renormalized by 65536.  The fuel argument counts remaining glyphs. -/
def emitPositionsFrom (sr : ScriptRunResult) (adv : List Int) (isRTL : Bool)
    (skewX : JFloat) : Nat → Nat → JFloat → List JFloat
  | 0, _, _ => []
  | fuel + 1, i, x =>
    let index := if isRTL then sr.numGlyphs - 1 - i else i
    let xo := hbFixedToFloat ((sr.offsets.getD index (0, 0)).1)
    let yo := hbFixedToFloat ((sr.offsets.getD index (0, 0)).2)
    (x + xo + yo * skewX / 65536) :: yo ::
      emitPositionsFrom sr adv isRTL skewX fuel (i + 1)
        (x + hbFixedToFloat (adv.getD index 0))

/-- The output half of a `TextLayoutValue`: the vectors `mAdvances`,
`mGlyphs`, `mPos` and the float `mTotalAdvance` that `computeValues` fills
in. -/
structure LayoutOut where
  advances : List JFloat
  totalAdvance : JFloat
  glyphs : List Nat
  pos : List JFloat
deriving Repr, DecidableEq

/-- Embeds the body of the script-run `while` loop of
`TextLayoutShaper::computeRunValues` for one script run: skip the run when
`advances == NULL || num_glyphs == 0`; otherwise apply the cluster writes to
`outAdvances` (`replaceAt`), append the glyphs and positions, and accumulate
the run's total advance. -/
def processScriptRun (isRTL : Bool) (skewX : JFloat) (st : LayoutOut)
    (sr : ScriptRunResult) : LayoutOut :=
  match sr.advances with
  | none => st
  | some adv =>
    if sr.numGlyphs = 0 then st
    else
      let ws := clusterWrites sr adv
      { advances := ws.foldl (fun l w => l.set w.1 w.2) st.advances
        totalAdvance := st.totalAdvance + (ws.map Prod.snd).sum
        glyphs := st.glyphs ++ emitGlyphs sr isRTL
        pos := st.pos ++ emitPositionsFrom sr adv isRTL skewX sr.numGlyphs 0 st.totalAdvance }

/-- Embeds `TextLayoutShaper::computeRunValues`: an empty run returns
unchanged ("We cannot shape an empty run"); otherwise `count` zero advances
are appended ("To be filled in later") and every script run produced by the
script-run iterator is processed in order.  The iterator's output (which
depends on the run's characters after normalization and mirroring) is
supplied as the `scriptRuns` oracle data. -/
def computeRunValues (scriptRuns : List ScriptRunResult) (count : Nat)
    (isRTL : Bool) (skewX : JFloat) (st : LayoutOut) : LayoutOut :=
  if count = 0 then st
  else
    scriptRuns.foldl (processScriptRun isRTL skewX)
      { st with advances := st.advances ++ List.replicate count 0 }

/-! Direction flags and ICU paragraph-level constants.  The `kBidi_*`
constants come from `TextLayout.h` (their values are fixed by the spec's
direction-flag table and the `switch` in `computeValues`); `UBIDI_DEFAULT_*`
are the ICU constants. -/

def kBidi_LTR : Int := 0

def kBidi_RTL : Int := 1

def kBidi_Default_LTR : Int := 2

def kBidi_Default_RTL : Int := 3

def kBidi_Force_LTR : Int := 4

def kBidi_Force_RTL : Int := 5

def UBIDI_DEFAULT_LTR : Nat := 0xfe

def UBIDI_DEFAULT_RTL : Nat := 0xff

/-- Embeds the `switch (dirFlags)` at the top of `computeValues` computing
`bidiReq` (the force cases leave `bidiReq = 0` and are dispatched before it
is used). -/
def bidiReqOf (dirFlags : Int) : Nat :=
  if dirFlags = kBidi_LTR then 0
  else if dirFlags = kBidi_RTL then 1
  else if dirFlags = kBidi_Default_LTR then UBIDI_DEFAULT_LTR
  else if dirFlags = kBidi_Default_RTL then UBIDI_DEFAULT_RTL
  else 0

/-- Oracle model of the ICU bidi service for one `computeValues` call:
whether `ubidi_open` succeeds, whether `ubidi_setPara` succeeds, the
paragraph level, whether `ubidi_countRuns` succeeds and its result `rc`, and
the visual runs `(startRun, lengthRun, isRTL)` returned by
`ubidi_getVisualRun` (a `startRun` or `lengthRun` of `-1` models an invalid
visual run). -/
structure BidiEnv where
  openOk : Bool
  setParaOk : Bool
  paraLevel : Nat
  countRunsOk : Bool
  rc : Int
  runs : List (Int × Int × Bool)
deriving Repr, DecidableEq

/-- Embeds the visual-run loop of `computeValues`: check each run for
validity (`startRun == -1 || lengthRun == -1` aborts to the single-run
fallback, discarding everything), skip runs disjoint from the requested
window `[start, stop)`, and clip the others (`startRun = max(startRun,
start)`, `endRun = min(endRun, stop)`).  Returns `none` when an invalid run
forces the fallback. -/
def collectRuns : List (Int × Int × Bool) → Int → Int → Option (List (Nat × Nat × Bool))
  | [], _, _ => some []
  | (startRun, lengthRun, runDir) :: rest, start, stop =>
    if startRun = -1 ∨ lengthRun = -1 then none
    else if startRun ≥ stop then collectRuns rest start stop
    else if startRun + lengthRun ≤ start then collectRuns rest start stop
    else
      let clippedStart := max startRun start
      let clippedEnd := min (startRun + lengthRun) stop
      (collectRuns rest start stop).map
        (fun tail => (clippedStart.toNat, (clippedEnd - clippedStart).toNat, runDir) :: tail)

/-- The shape of runs `computeValues` ends up dispatching to
`computeRunValues`: either the single-run fallback over `[start,
start+count)` with a direction, or the clipped visual runs in visual
order. -/
inductive RunPlan where
  | single (isRTL : Bool)
  | multi (runs : List (Nat × Nat × Bool))
deriving Repr, DecidableEq

/-- Embeds the control flow of `TextLayoutShaper::computeValues` deciding
which runs are shaped.  Note the two Unicode-failure fallbacks (`ubidi_open`
returning NULL, `ubidi_setPara` failing) where the source executes
`isRTL = (bidiReq = 1) || (bidiReq = UBIDI_DEFAULT_RTL);` — single `=`, an
assignment whose value `1` is truthy — so `isRTL` is `true` there regardless
of the requested direction; the embedding reproduces that faithfully. -/
def resolveRunPlan (dirFlags : Int) (env : BidiEnv) (start count : Nat) : RunPlan :=
  if dirFlags = kBidi_Force_LTR then .single false
  else if dirFlags = kBidi_Force_RTL then .single true
  else if env.openOk = false then .single true
  else if env.setParaOk = false then .single true
  else
    let paraDir := env.paraLevel % 2
    if env.countRunsOk = true ∧ env.rc = 1 then .single (paraDir == 1)
    else if env.countRunsOk = false ∨ env.rc < 1 then .single (paraDir == 1)
    else
      match collectRuns (env.runs.take env.rc.toNat) (start : Int)
          ((start : Int) + (count : Int)) with
      | none => .single (paraDir == 1)
      | some rs => .multi rs

/-- The `SkPaint` fields this engine reads (captured into the cache key and
forwarded to `mShapingPaint`).  `SkScalar` fields are in the scaled 16.16
float model. -/
structure PaintRec where
  typeface : Nat
  textSize : Int
  textSkewX : Int
  textScaleX : Int
  flags : Nat
  hinting : Int
  variant : Int
  language : Nat
deriving Repr, DecidableEq

section Engine

/- `shape` is the oracle model of the Harfbuzz script-run iterator plus
`HB_ShapeItem` for one bidi run: given the effective paint, the run's
characters and its direction, the script runs it produces (with all the
shaper outputs).  `bidiOracle` is the oracle model of the ICU bidi resolver:
given the context characters, `contextCount` and the requested paragraph
level `bidiReq`, the resulting `BidiEnv`. -/

variable (shape : PaintRec → List Nat → Bool → List ScriptRunResult)

variable (bidiOracle : List Nat → Nat → Nat → BidiEnv)

/-- Embeds `TextLayoutShaper::computeValues` (the outer overload writing into
a fresh `TextLayoutValue`): zero the total advance and return immediately on
`count == 0`; otherwise resolve the run plan and dispatch each run to
`computeRunValues`.  The single-run fallback shapes `chars + start`
(`count` characters); the multi-run path shapes each clipped visual run. -/
def computeValues (paint : PaintRec) (chars : List Nat)
    (start count contextCount : Nat) (dirFlags : Int) : LayoutOut :=
  if count = 0 then ⟨[], 0, [], []⟩
  else
    let env := bidiOracle chars contextCount (bidiReqOf dirFlags)
    match resolveRunPlan dirFlags env start count with
    | .single isRTL =>
        computeRunValues (shape paint ((chars.drop start).take count) isRTL) count isRTL
          paint.textSkewX ⟨[], 0, [], []⟩
    | .multi runs =>
        runs.foldl
          (fun st r =>
            computeRunValues (shape paint ((chars.drop r.1).take r.2.1) r.2.2) r.2.1 r.2.2
              paint.textSkewX st)
          ⟨[], 0, [], []⟩

end Engine

/-- Outcome of one `TextLayoutShaper::doShaping` call: the glyph-array
capacity `mShaperItemGlyphArraySize` after the (possible) reallocation, the
`num_glyphs` field after `HB_ShapeItem` returned, the `offsets` array as
zeroed by the pre-call `memset`, and whether `HB_ShapeItem` succeeded. -/
structure DoShapingResult where
  arraySize : Nat
  numGlyphs : Nat
  offsets : List (Int × Int)
  ok : Bool
deriving Repr, DecidableEq

/-- Embeds `TextLayoutShaper::doShaping` under the shaper-library contract.
`required` is the oracle datum: the glyph count the current item actually
needs.  If the requested `size` exceeds the current capacity `cap`, the five
arrays are deleted and recreated at `size`; `num_glyphs` is set to the full
capacity and `offsets` is zeroed over `num_glyphs` entries; `HB_ShapeItem`
succeeds exactly when the capacity suffices and otherwise returns false with
`num_glyphs` set to the required count. -/
def doShaping (cap size required : Nat) : DoShapingResult :=
  let capacity := if size > cap then size else cap
  { arraySize := capacity
    numGlyphs := required
    offsets := List.replicate capacity ((0 : Int), (0 : Int))
    ok := decide (required ≤ capacity) }

/-- Embeds the retry loop of `shapeFontRun`: `while (!doShaping(size)) size =
mShaperItem.num_glyphs * 2;`, with fuel counting the attempts; returns the
final array capacity. -/
def shapeGlyphArraysLoop (required : Nat) : Nat → Nat → Nat → Option Nat
  | 0, _, _ => none
  | fuel + 1, cap, size =>
    let r := doShaping cap size required
    if r.ok then some r.arraySize
    else shapeGlyphArraysLoop required fuel r.arraySize (r.numGlyphs * 2)

/-- The buffer protocol of `shapeFontRun` for one script run of length
`runLength` (non-empty by the `assert`): first request `length * 3 / 2`,
then run the retry loop; two attempts always suffice under the contract. -/
def shapeFontRunArrays (cap runLength required : Nat) : Option Nat :=
  shapeGlyphArraysLoop required 2 cap (runLength * 3 / 2)

/-- Embeds `TextLayoutCacheKey`: the request fingerprint, owning a copy of
the `contextCount` context code units plus the paint style fields.
`SkScalar` fields are in the scaled 16.16 float model, `typeface` is the
pointer identity, `language` an opaque value-comparable tag. -/
@[ext]
structure TextLayoutCacheKey where
  textCopy : List Nat
  start : Nat
  count : Nat
  contextCount : Nat
  dirFlags : Int
  typeface : Nat
  textSize : Int
  textSkewX : Int
  textScaleX : Int
  flags : Nat
  hinting : Int
  variant : Int
  language : Nat
deriving Repr, DecidableEq

/-- Embeds the key constructor `TextLayoutCacheKey(paint, text, start, count,
contextCount, dirFlags)`: `textCopy.setTo(text, contextCount)` plus the paint
getters. -/
def mkKey (paint : PaintRec) (text : List Nat) (start count contextCount : Nat)
    (dirFlags : Int) : TextLayoutCacheKey :=
  { textCopy := text.take contextCount
    start := start
    count := count
    contextCount := contextCount
    dirFlags := dirFlags
    typeface := paint.typeface
    textSize := paint.textSize
    textSkewX := paint.textSkewX
    textScaleX := paint.textScaleX
    flags := paint.flags
    hinting := paint.hinting
    variant := paint.variant
    language := paint.language }

/-- Truncation of an integer to a 32-bit two's-complement `int`, as happens
when a `size_t` (or `uint32_t`) difference is assigned to `deltaInt` in
`TextLayoutCacheKey::compare`. -/
def trunc32 (x : Int) : Int := (x + 2 ^ 31) % 2 ^ 32 - 2 ^ 31

/-- Embeds the final `memcmp(lhs.getText(), rhs.getText(), lhs.contextCount *
sizeof(UChar))` of `TextLayoutCacheKey::compare` at the level of UTF-16 code
units: scan the first `n` units (reading past the end of a list gives the
unit 0), return the sign of the first difference.  `memcmp` compares the
underlying bytes, so its sign can differ from the unit-wise sign on a
little-endian target, but its zero/non-zero outcome — the only thing the
cache and the equality claim use — is the same. -/
def memcmpUnits : Nat → List Nat → List Nat → Int
  | 0, _, _ => 0
  | n + 1, a, b =>
    if a.headD 0 < b.headD 0 then -1
    else if b.headD 0 < a.headD 0 then 1
    else memcmpUnits n a.tail b.tail

/-- Embeds `TextLayoutCacheKey::compare`: ordered comparison of `start`,
`count`, `contextCount` (as `int` truncations of `size_t` differences),
`typeface` identity, the three scalars, `flags` (truncated `uint32_t`
difference), `hinting`, `dirFlags`, `variant` (small enum differences),
`language`, then the byte-wise text comparison. -/
def TextLayoutCacheKey.compare (lhs rhs : TextLayoutCacheKey) : Int :=
  let d1 := trunc32 ((lhs.start : Int) - (rhs.start : Int))
  if d1 ≠ 0 then d1
  else
    let d2 := trunc32 ((lhs.count : Int) - (rhs.count : Int))
    if d2 ≠ 0 then d2
    else
      let d3 := trunc32 ((lhs.contextCount : Int) - (rhs.contextCount : Int))
      if d3 ≠ 0 then d3
      else if lhs.typeface < rhs.typeface then -1
      else if rhs.typeface < lhs.typeface then 1
      else if lhs.textSize < rhs.textSize then -1
      else if rhs.textSize < lhs.textSize then 1
      else if lhs.textSkewX < rhs.textSkewX then -1
      else if rhs.textSkewX < lhs.textSkewX then 1
      else if lhs.textScaleX < rhs.textScaleX then -1
      else if rhs.textScaleX < lhs.textScaleX then 1
      else
        let d4 := trunc32 ((lhs.flags : Int) - (rhs.flags : Int))
        if d4 ≠ 0 then d4
        else
          let d5 := lhs.hinting - rhs.hinting
          if d5 ≠ 0 then d5
          else
            let d6 := lhs.dirFlags - rhs.dirFlags
            if d6 ≠ 0 then d6
            else
              let d7 := lhs.variant - rhs.variant
              if d7 ≠ 0 then d7
              else if lhs.language < rhs.language then -1
              else if rhs.language < lhs.language then 1
              else memcmpUnits lhs.contextCount lhs.textCopy rhs.textCopy

/-- Well-formedness of a key as actually constructed from JNI arguments:
the `size_t` fields fit in 32 bits (they come from `jint` casts), `flags`
is a `uint32_t`, and the text copy really holds `contextCount` units. -/
def KeyWF (k : TextLayoutCacheKey) : Prop :=
  k.start < 2 ^ 32 ∧ k.count < 2 ^ 32 ∧ k.contextCount < 2 ^ 32 ∧
    k.flags < 2 ^ 32 ∧ k.textCopy.length = k.contextCount

instance (k : TextLayoutCacheKey) : Decidable (KeyWF k) := by
  unfold KeyWF; infer_instance

/-- Embeds `TextLayoutCacheKey::getSize() = sizeof(TextLayoutCacheKey) +
sizeof(UChar) * contextCount`; the fixed struct size is the parameter
`structSize`. -/
def keyGetSize (structSize : Nat) (k : TextLayoutCacheKey) : Nat :=
  structSize + 2 * k.contextCount

/-- The two `LOG_ALWAYS_FATAL_IF` checks in `TextLayoutCache::getValue`:
`removeOldest` failing on a cache the size accounting says is non-empty, and
`put` failing after a missed lookup. -/
inductive FatalCheck where
  | removeOldestFailed
  | putFailed
deriving Repr, DecidableEq

/-- State of a `TextLayoutCache`: the entries of the `GenerationCache`
in recency order (oldest first), the byte account `mSize` and the budget
`mMaxSize`. -/
structure CacheState where
  entries : List (TextLayoutCacheKey × LayoutOut)
  mSize : Nat
  maxSize : Nat
deriving Repr, DecidableEq

section Cache

variable (shape : PaintRec → List Nat → Bool → List ScriptRunResult)

variable (bidiOracle : List Nat → Nat → Nat → BidiEnv)

/- `keyStructSize` and `valueSize` parameterize the byte accounting:
`keyStructSize` is `sizeof(TextLayoutCacheKey)`, and `valueSize` is
`TextLayoutValue::getSize()` (which depends on vector capacities the list
model does not track, so it is kept abstract). -/

variable (keyStructSize : Nat) (valueSize : LayoutOut → Nat)

/-- Byte size of one cache entry: `key.getSize() + value->getSize()`. -/
def entrySize (e : TextLayoutCacheKey × LayoutOut) : Nat :=
  keyGetSize keyStructSize e.1 + valueSize e.2

/-- Modelled from the spec: `GenerationCache::get` (the cache container
itself lives outside this file).  Find the entry whose key compares equal;
on a hit return its value and refresh its recency (LRU semantics: "recency
order = insertion order, refreshed on hit"). -/
def gcGet (es : List (TextLayoutCacheKey × LayoutOut)) (k : TextLayoutCacheKey) :
    Option (LayoutOut × List (TextLayoutCacheKey × LayoutOut)) :=
  match es.find? (fun e => TextLayoutCacheKey.compare k e.1 == 0) with
  | none => none
  | some e =>
    some (e.2, (es.eraseP (fun e' => TextLayoutCacheKey.compare k e'.1 == 0)) ++ [e])

/-- Modelled from the spec: `GenerationCache::put` appends the new entry as
most recent and fails (returns `none`) when an entry with an equal key is
already present. -/
def gcPut (es : List (TextLayoutCacheKey × LayoutOut)) (k : TextLayoutCacheKey)
    (v : LayoutOut) : Option (List (TextLayoutCacheKey × LayoutOut)) :=
  if es.any (fun e => TextLayoutCacheKey.compare k e.1 == 0) then none
  else some (es ++ [(k, v)])

/-- Embeds the eviction loop of `TextLayoutCache::getValue`:
`while (mSize + size > mMaxSize)` remove the oldest entry (the removal
callback `operator()` subtracts its size from `mSize`); if `removeOldest`
fails because the list is empty, the `LOG_ALWAYS_FATAL_IF` fires. -/
def evictOldest (need maxSize : Nat) :
    List (TextLayoutCacheKey × LayoutOut) → Nat →
      Except FatalCheck (List (TextLayoutCacheKey × LayoutOut) × Nat)
  | [], m =>
    if m + need > maxSize then .error .removeOldestFailed else .ok ([], m)
  | e :: rest, m =>
    if m + need > maxSize then
      evictOldest need maxSize rest (m - entrySize keyStructSize valueSize e)
    else .ok (e :: rest, m)

/-- Embeds `TextLayoutCache::getValue`: build the key; on a hit return the
shared value (the `Bool` component records that the hit branch, which only
updates statistics, was taken).  On a miss compute a fresh value over the
key's text copy, then insert it — evicting oldest entries while over budget
and accounting `mSize += size` — unless the entry is bigger than the whole
budget, in which case the value is returned without touching the cache. -/
def getValue (st : CacheState) (paint : PaintRec) (text : List Nat)
    (start count contextCount : Nat) (dirFlags : Int) :
    Except FatalCheck (LayoutOut × Bool × CacheState) :=
  let key := mkKey paint text start count contextCount dirFlags
  match gcGet st.entries key with
  | some (v, es) => .ok (v, true, { st with entries := es })
  | none =>
    let value := computeValues shape bidiOracle paint key.textCopy start count
      contextCount dirFlags
    let size := keyGetSize keyStructSize key + valueSize value
    if size ≤ st.maxSize then
      match evictOldest keyStructSize valueSize size st.maxSize st.entries st.mSize with
      | .error f => .error f
      | .ok (es, m) =>
        match gcPut es key value with
        | none => .error .putFailed
        | some es' => .ok (value, false, { st with entries := es', mSize := m + size })
    else .ok (value, false, st)

end Cache

section CacheProps

variable (shape : PaintRec → List Nat → Bool → List ScriptRunResult)

variable (bidiOracle : List Nat → Nat → Nat → BidiEnv)

variable (keyStructSize : Nat) (valueSize : LayoutOut → Nat)

/-- Total byte account of a list of entries: the sum the cache's `mSize` is
supposed to track. -/
def cacheBytes (es : List (TextLayoutCacheKey × LayoutOut)) : Nat :=
  (es.map (entrySize keyStructSize valueSize)).sum

/-- Well-formedness of a cache state: `mSize` equals the byte sum over the
entries, every stored key is well formed, and keys are pairwise distinct. -/
def CacheWF (s : CacheState) : Prop :=
  s.mSize = cacheBytes keyStructSize valueSize s.entries ∧
    (∀ e ∈ s.entries, KeyWF e.1) ∧
    s.entries.Pairwise (fun a b => a.1 ≠ b.1)

/-- The paint reconstructed from the style fields a key stores (the key
captures every paint field the shaper reads). -/
def paintOfKey (k : TextLayoutCacheKey) : PaintRec :=
  ⟨k.typeface, k.textSize, k.textSkewX, k.textScaleX, k.flags, k.hinting, k.variant,
    k.language⟩

/-- The value the shaper produces for a key: `computeValues` over the key's
own text copy and fields — exactly what the miss path of `getValue`
computes. -/
def specValueOfKey (k : TextLayoutCacheKey) : LayoutOut :=
  computeValues shape bidiOracle (paintOfKey k) k.textCopy k.start k.count k.contextCount
    k.dirFlags

/-- Coherence: every cached value is the shaper's output for its own key. -/
def CacheCoherent (s : CacheState) : Prop :=
  ∀ e ∈ s.entries, e.2 = specValueOfKey shape bidiOracle e.1

end CacheProps

instance (ks : Nat) (vs : LayoutOut → Nat) (s : CacheState) : Decidable (CacheWF ks vs s) := by
  unfold CacheWF
  infer_instance

instance (shape : PaintRec → List Nat → Bool → List ScriptRunResult)
    (bidiOracle : List Nat → Nat → Nat → BidiEnv) (s : CacheState) :
    Decidable (CacheCoherent shape bidiOracle s) := by
  unfold CacheCoherent
  infer_instance

/-! Concrete example oracles and inputs, used to instantiate the theorems
with hypotheses at closed values. -/

/-- A shaper oracle that produces no script runs. -/
def exShape : PaintRec → List Nat → Bool → List ScriptRunResult := fun _ _ _ => []

/-- A bidi oracle where everything succeeds with a single LTR run. -/
def exBidi : List Nat → Nat → Nat → BidiEnv :=
  fun _ _ _ => ⟨true, true, 0, true, 1, [(0, 1, false)]⟩

/-- An example paint (textSize 12.0 and textScaleX 1.0 in 16.16 units). -/
def exPaint : PaintRec := ⟨1, 786432, 0, 65536, 0, 1, 0, 0⟩

/-- A value-size function making every value cost 0 bytes. -/
def exValueSize : LayoutOut → Nat := fun _ => 0

/-- A value-size function making every value cost 1000 bytes. -/
def exBigValueSize : LayoutOut → Nat := fun _ => 1000

/-- A shaper oracle producing one script run covering one character with a
single glyph of advance 1.0 (65536 in 16.16). -/
def exShapeOne : PaintRec → List Nat → Bool → List ScriptRunResult :=
  fun _ _ _ => [⟨0, 1, 1, [7], some [65536], [(0, 0)], [0], 0⟩]

/-- A bidi oracle resolving the context into two visual runs (an LTR one over
position 0 and an RTL one over position 1). -/
def exBidiTwoRuns : List Nat → Nat → Nat → BidiEnv :=
  fun _ _ _ => ⟨true, true, 0, true, 2, [(0, 1, false), (1, 1, true)]⟩

/-- Well-formedness of the script runs the shaper reports for one bidi run of
`count` characters: each script run lies inside the run, and distinct script
runs do not overlap (the script-run iterator emits a partition of the run
into script-homogeneous segments). -/
def ScriptRunsWF (srs : List ScriptRunResult) (count : Nat) : Prop :=
  (∀ sr ∈ srs, sr.pos + sr.length ≤ count) ∧
    srs.Pairwise (fun a b => a.pos + a.length ≤ b.pos ∨ b.pos + b.length ≤ a.pos)

instance (srs : List ScriptRunResult) (count : Nat) : Decidable (ScriptRunsWF srs count) := by
  unfold ScriptRunsWF
  infer_instance

/-- Well-formedness of a successful bidi resolution over a context of
`contextCount` code units: `rc` visual runs are available, each valid and
non-empty, mutually disjoint, and together covering every context position —
the contract of `ubidi_countRuns`/`ubidi_getVisualRun`. -/
def BidiWF (env : BidiEnv) (contextCount : Nat) : Prop :=
  (∀ r ∈ env.runs.take env.rc.toNat, 0 ≤ r.1 ∧ 0 < r.2.1) ∧
    (env.runs.take env.rc.toNat).Pairwise
      (fun r r' => r.1 + r.2.1 ≤ r'.1 ∨ r'.1 + r'.2.1 ≤ r.1) ∧
    (∀ x : Nat, x < contextCount →
      ∃ r ∈ env.runs.take env.rc.toNat, r.1 ≤ (x : Int) ∧ (x : Int) < r.1 + r.2.1)

instance (env : BidiEnv) (contextCount : Nat) : Decidable (BidiWF env contextCount) := by
  unfold BidiWF
  infer_instance

/-! Basic facts about 32-bit truncation and the text comparison. -/

lemma trunc32_eq_zero_iff {d : Int} (h1 : -(2 ^ 32) < d) (h2 : d < 2 ^ 32) :
    trunc32 d = 0 ↔ d = 0 := by
  unfold trunc32
  omega

lemma memcmpUnits_eq_zero_iff (n : Nat) :
    ∀ a b : List Nat, a.length = n → b.length = n → (memcmpUnits n a b = 0 ↔ a = b) := by
  induction n with
  | zero =>
    intro a b ha hb
    obtain rfl := List.length_eq_zero.mp ha
    obtain rfl := List.length_eq_zero.mp hb
    simp [memcmpUnits]
  | succ n ih =>
    intro a b ha hb
    cases a with
    | nil => simp at ha
    | cons x a =>
      cases b with
      | nil => simp at hb
      | cons y b =>
        simp only [List.length_cons, Nat.succ.injEq] at ha hb
        simp only [memcmpUnits, List.headD_cons, List.tail_cons]
        rcases Nat.lt_trichotomy x y with h | h | h
        · have hxy : x ≠ y := Nat.ne_of_lt h
          simp [h, hxy]
        · subst h
          simp [Nat.lt_irrefl, ih a b ha hb]
        · have hxy : x ≠ y := (Nat.ne_of_lt h).symm
          simp [Nat.lt_asymm h, h, hxy]

lemma chain_delta {c rest : Int} (h : (if c ≠ 0 then c else rest) = 0) :
    c = 0 ∧ rest = 0 := by
  by_cases hc : c ≠ 0
  · rw [if_pos hc] at h
    exact absurd h hc
  · rw [if_neg hc] at h
    push_neg at hc
    exact ⟨hc, h⟩

lemma chain_lt {α : Type} [LinearOrder α] {a b : α} {rest : Int}
    (h : (if a < b then (-1 : Int) else if b < a then 1 else rest) = 0) :
    a = b ∧ rest = 0 := by
  by_cases h1 : a < b
  · rw [if_pos h1] at h
    norm_num at h
  · rw [if_neg h1] at h
    by_cases h2 : b < a
    · rw [if_pos h2] at h
      norm_num at h
    · rw [if_neg h2] at h
      exact ⟨le_antisymm (not_lt.mp h2) (not_lt.mp h1), h⟩

lemma compare_eq_zero_iff {lhs rhs : TextLayoutCacheKey} (hl : KeyWF lhs) (hr : KeyWF rhs) :
    TextLayoutCacheKey.compare lhs rhs = 0 ↔ lhs = rhs := by
  obtain ⟨hl1, hl2, hl3, hl4, hl5⟩ := hl
  obtain ⟨hr1, hr2, hr3, hr4, hr5⟩ := hr
  have hz : trunc32 0 = 0 := by unfold trunc32; decide
  constructor
  · intro h
    unfold TextLayoutCacheKey.compare at h
    simp only [] at h
    obtain ⟨d1, h⟩ := chain_delta h
    obtain ⟨d2, h⟩ := chain_delta h
    obtain ⟨d3, h⟩ := chain_delta h
    obtain ⟨e4, h⟩ := chain_lt h
    obtain ⟨e5, h⟩ := chain_lt h
    obtain ⟨e6, h⟩ := chain_lt h
    obtain ⟨e7, h⟩ := chain_lt h
    obtain ⟨d4, h⟩ := chain_delta h
    obtain ⟨d5, h⟩ := chain_delta h
    obtain ⟨d6, h⟩ := chain_delta h
    obtain ⟨d7, h⟩ := chain_delta h
    obtain ⟨e12, h⟩ := chain_lt h
    have e1 : lhs.start = rhs.start := by
      have := (trunc32_eq_zero_iff (d := (lhs.start : Int) - (rhs.start : Int))
        (by omega) (by omega)).mp d1
      omega
    have e2 : lhs.count = rhs.count := by
      have := (trunc32_eq_zero_iff (d := (lhs.count : Int) - (rhs.count : Int))
        (by omega) (by omega)).mp d2
      omega
    have e3 : lhs.contextCount = rhs.contextCount := by
      have := (trunc32_eq_zero_iff (d := (lhs.contextCount : Int) - (rhs.contextCount : Int))
        (by omega) (by omega)).mp d3
      omega
    have e8 : lhs.flags = rhs.flags := by
      have := (trunc32_eq_zero_iff (d := (lhs.flags : Int) - (rhs.flags : Int))
        (by omega) (by omega)).mp d4
      omega
    have e9 : lhs.hinting = rhs.hinting := by omega
    have e10 : lhs.dirFlags = rhs.dirFlags := by omega
    have e11 : lhs.variant = rhs.variant := by omega
    have e13 : lhs.textCopy = rhs.textCopy :=
      (memcmpUnits_eq_zero_iff lhs.contextCount lhs.textCopy rhs.textCopy hl5
        (by omega)).mp h
    exact TextLayoutCacheKey.ext e13 e1 e2 e3 e10 e4 e5 e6 e7 e8 e9 e11 e12
  · rintro rfl
    unfold TextLayoutCacheKey.compare
    simp only [sub_self, hz, ne_eq, not_true_eq_false, if_false, lt_self_iff_false,
      ite_false]
    exact (memcmpUnits_eq_zero_iff lhs.contextCount lhs.textCopy lhs.textCopy hl5 hl5).mpr
      rfl

/-! Claims C2, C7, C8 and C9. -/

/-- C2: at the failing input — an LTR (or DEFAULT_LTR) request with
`ubidi_open` returning NULL, or with `ubidi_setPara` failing — the code
collapses to a **RTL** single run (`RunPlan.single true`), because
`isRTL = (bidiReq = 1) || (bidiReq = UBIDI_DEFAULT_RTL)` assigns instead of
comparing; the claim (and the spec's stated intent) require an LTR single
run there. -/
theorem C2_fallback_rtl_on_ltr_request :
    resolveRunPlan kBidi_LTR ⟨false, true, 0, true, 0, []⟩ 0 1 = RunPlan.single true ∧
    resolveRunPlan kBidi_LTR ⟨true, false, 0, true, 0, []⟩ 0 1 = RunPlan.single true ∧
    resolveRunPlan kBidi_Default_LTR ⟨false, true, 0, true, 0, []⟩ 0 1 =
      RunPlan.single true := by
  decide

/-- C7: `TextLayoutCacheKey::compare` returns 0 exactly when the two keys
agree in every field — `start`, `count`, `contextCount`, typeface identity,
the three scalars, `flags`, `hinting`, `dirFlags`, `variant`, `language` —
and the `contextCount` copied code units coincide, i.e. exactly when the
keys are equal. -/
theorem C7_compare_zero_iff_eq (lhs rhs : TextLayoutCacheKey)
    (hl : KeyWF lhs) (hr : KeyWF rhs) :
    TextLayoutCacheKey.compare lhs rhs = 0 ↔ lhs = rhs :=
  compare_eq_zero_iff hl hr

/-- Witness for C7 at a concrete pair of keys. -/
theorem C7_compare_zero_iff_eq_witness :
    KeyWF ⟨[7, 8], 0, 1, 2, 0, 3, 786432, 0, 65536, 1, 0, 0, 0⟩ ∧
    (TextLayoutCacheKey.compare ⟨[7, 8], 0, 1, 2, 0, 3, 786432, 0, 65536, 1, 0, 0, 0⟩
        ⟨[7, 8], 0, 1, 2, 0, 3, 786432, 0, 65536, 1, 0, 0, 0⟩ = 0 ↔
      (⟨[7, 8], 0, 1, 2, 0, 3, 786432, 0, 65536, 1, 0, 0, 0⟩ : TextLayoutCacheKey) =
        ⟨[7, 8], 0, 1, 2, 0, 3, 786432, 0, 65536, 1, 0, 0, 0⟩) :=
  ⟨by decide,
    C7_compare_zero_iff_eq _ _ (by decide) (by decide)⟩

/-- C8 counterexample: with a prior capacity of 100 glyphs, the first
shaping attempt for a script run of length 2 requests `2 * 3 / 2 = 3` but
runs with arrays of capacity 100, not `floor(1.5 × 2)` as claimed
(`doShaping` only reallocates when the request exceeds the current
capacity). -/
theorem C8_first_attempt_counterexample :
    (doShaping 100 (2 * 3 / 2) 50).arraySize = 100 ∧ (2 * 3 / 2 : Nat) = 3 ∧
      (100 : Nat) ≠ 3 := by
  decide

/-- C8 (amended): for a non-empty script run the first attempt requests
`floor(1.5 × runLength)` (which is at least 1) and runs with arrays of
capacity `max cap (runLength * 3 / 2)` — growing only when the request
exceeds the current capacity `cap` — with the offsets zeroed; if the shaper
reports insufficient capacity the arrays are reallocated to exactly
`2 × required` and the retry succeeds, so the loop terminates within two
attempts, and the final capacity never drops below `cap`. -/
theorem C8_buffer_growth (cap runLength required : Nat) (hrun : 1 ≤ runLength) :
    1 ≤ runLength * 3 / 2 ∧
    (doShaping cap (runLength * 3 / 2) required).arraySize = max cap (runLength * 3 / 2) ∧
    (doShaping cap (runLength * 3 / 2) required).offsets =
      List.replicate (max cap (runLength * 3 / 2)) (0, 0) ∧
    ∃ finalCap, shapeFontRunArrays cap runLength required = some finalCap ∧
      cap ≤ finalCap ∧ required ≤ finalCap ∧
      finalCap = if required ≤ max cap (runLength * 3 / 2) then
        max cap (runLength * 3 / 2) else 2 * required := by
  have hsz : 1 ≤ runLength * 3 / 2 := by omega
  have hcap : (if runLength * 3 / 2 > cap then runLength * 3 / 2 else cap) =
      max cap (runLength * 3 / 2) := by
    rcases Nat.lt_or_ge cap (runLength * 3 / 2) with h | h
    · simp [h, Nat.max_eq_right (Nat.le_of_lt h)]
    · simp [Nat.not_lt.mpr h, Nat.max_eq_left h]
  refine ⟨hsz, by simp [doShaping, hcap], by simp [doShaping, hcap], ?_⟩
  unfold shapeFontRunArrays shapeGlyphArraysLoop
  by_cases hfit : required ≤ max cap (runLength * 3 / 2)
  · refine ⟨max cap (runLength * 3 / 2), ?_, Nat.le_max_left _ _, hfit, by simp [hfit]⟩
    simp [doShaping, hcap, hfit]
  · have hlt : max cap (runLength * 3 / 2) < required := Nat.lt_of_not_le hfit
    refine ⟨2 * required, ?_, by omega, by omega, by simp [hfit]⟩
    have hgrow : (if required * 2 > max cap (runLength * 3 / 2) then required * 2
        else max cap (runLength * 3 / 2)) = required * 2 := by
      have : max cap (runLength * 3 / 2) < required * 2 := by omega
      simp [this]
    simp only [doShaping, hcap]
    simp only [decide_eq_true_eq, shapeGlyphArraysLoop, doShaping, hgrow]
    have h2 : required ≤ required * 2 := by omega
    simp [hfit, h2]
    omega

/-- Witness for C8 at `cap = 0`, `runLength = 2`, `required = 5`. -/
theorem C8_buffer_growth_witness :
    (1 : Nat) ≤ 2 ∧
    (1 ≤ 2 * 3 / 2 ∧
      (doShaping 0 (2 * 3 / 2) 5).arraySize = max 0 (2 * 3 / 2) ∧
      (doShaping 0 (2 * 3 / 2) 5).offsets = List.replicate (max 0 (2 * 3 / 2)) (0, 0) ∧
      ∃ finalCap, shapeFontRunArrays 0 2 5 = some finalCap ∧
        0 ≤ finalCap ∧ 5 ≤ finalCap ∧
        finalCap = if 5 ≤ max 0 (2 * 3 / 2) then max 0 (2 * 3 / 2) else 2 * 5) :=
  ⟨by decide, C8_buffer_growth 0 2 5 (by decide)⟩

/-- C9: a request with `count == 0` yields zero total advance, no glyphs, no
positions and no (hence all-zero) advances — `computeValues` zeroes the
total advance and returns before appending anything. -/
theorem C9_empty_count (shape : PaintRec → List Nat → Bool → List ScriptRunResult)
    (bidiOracle : List Nat → Nat → Nat → BidiEnv) (paint : PaintRec) (chars : List Nat)
    (start contextCount : Nat) (dirFlags : Int) :
    computeValues shape bidiOracle paint chars start 0 contextCount dirFlags =
      ⟨[], 0, [], []⟩ := rfl

/-! Facts about the cache container operations. -/

lemma cacheBytes_nil (ks : Nat) (vs : LayoutOut → Nat) : cacheBytes ks vs [] = 0 := rfl

lemma cacheBytes_cons (ks : Nat) (vs : LayoutOut → Nat) (e : TextLayoutCacheKey × LayoutOut)
    (es : List (TextLayoutCacheKey × LayoutOut)) :
    cacheBytes ks vs (e :: es) = entrySize ks vs e + cacheBytes ks vs es := by
  simp [cacheBytes]

lemma cacheBytes_append (ks : Nat) (vs : LayoutOut → Nat)
    (l1 l2 : List (TextLayoutCacheKey × LayoutOut)) :
    cacheBytes ks vs (l1 ++ l2) = cacheBytes ks vs l1 + cacheBytes ks vs l2 := by
  simp [cacheBytes]

lemma cacheBytes_perm (ks : Nat) (vs : LayoutOut → Nat)
    {l1 l2 : List (TextLayoutCacheKey × LayoutOut)} (h : l1.Perm l2) :
    cacheBytes ks vs l1 = cacheBytes ks vs l2 :=
  (h.map (entrySize ks vs)).sum_eq

lemma gcGet_eq_none_iff (es : List (TextLayoutCacheKey × LayoutOut)) (k : TextLayoutCacheKey) :
    gcGet es k = none ↔ ∀ e ∈ es, ¬TextLayoutCacheKey.compare k e.1 = 0 := by
  unfold gcGet
  cases hf : es.find? (fun e => TextLayoutCacheKey.compare k e.1 == 0) with
  | none =>
    simp only [List.find?_eq_none, beq_iff_eq] at hf
    simpa using hf
  | some e =>
    have hp := List.find?_some hf
    rw [beq_iff_eq] at hp
    have hmem := List.mem_of_find?_eq_some hf
    constructor
    · intro hc
      exact Option.noConfusion hc
    · intro hall
      exact absurd hp (hall e hmem)

lemma find?_eraseP_perm {α : Type} (p : α → Bool) :
    ∀ (es : List α) (e : α), es.find? p = some e → es.Perm (e :: es.eraseP p) := by
  intro es
  induction es with
  | nil => intro e h; simp at h
  | cons x xs ih =>
    intro e h
    by_cases hp : p x
    · rw [List.find?_cons_of_pos _ hp] at h
      obtain rfl := Option.some.inj h
      rw [List.eraseP_cons_of_pos hp]
    · rw [List.find?_cons_of_neg _ hp] at h
      rw [List.eraseP_cons_of_neg hp]
      exact ((ih e h).cons x).trans (List.Perm.swap e x _)

lemma gcGet_eq_some_spec {es : List (TextLayoutCacheKey × LayoutOut)} {k : TextLayoutCacheKey}
    {v : LayoutOut} {es' : List (TextLayoutCacheKey × LayoutOut)}
    (h : gcGet es k = some (v, es')) :
    ∃ e, TextLayoutCacheKey.compare k e.1 = 0 ∧ e ∈ es ∧ v = e.2 ∧ es'.Perm es := by
  unfold gcGet at h
  cases hf : es.find? (fun e => TextLayoutCacheKey.compare k e.1 == 0) with
  | none => rw [hf] at h; exact Option.noConfusion h
  | some e =>
    rw [hf] at h
    obtain ⟨hv, hes⟩ := Prod.mk.inj (Option.some.inj h)
    have hp := List.find?_some hf
    rw [beq_iff_eq] at hp
    have hmem := List.mem_of_find?_eq_some hf
    refine ⟨e, hp, hmem, hv.symm, ?_⟩
    rw [← hes]
    exact (List.perm_append_singleton e _).trans (find?_eraseP_perm _ es e hf).symm

lemma gcPut_eq_some_iff (es : List (TextLayoutCacheKey × LayoutOut)) (k : TextLayoutCacheKey)
    (v : LayoutOut) (es' : List (TextLayoutCacheKey × LayoutOut)) :
    gcPut es k v = some es' ↔
      (∀ e ∈ es, ¬TextLayoutCacheKey.compare k e.1 = 0) ∧ es' = es ++ [(k, v)] := by
  unfold gcPut
  by_cases ha : es.any (fun e => TextLayoutCacheKey.compare k e.1 == 0) = true
  · rw [if_pos ha]
    obtain ⟨e, hmem, hp⟩ := List.any_eq_true.mp ha
    rw [beq_iff_eq] at hp
    constructor
    · intro hc; exact Option.noConfusion hc
    · rintro ⟨hall, -⟩; exact absurd hp (hall e hmem)
  · rw [if_neg ha]
    have hall := List.any_eq_false.mp (Bool.eq_false_iff.mpr ha)
    simp only [beq_iff_eq] at hall
    constructor
    · intro hc; exact ⟨hall, (Option.some.inj hc).symm⟩
    · rintro ⟨-, rfl⟩; rfl

lemma evictOldest_ok_spec (ks : Nat) (vs : LayoutOut → Nat) (need maxSize : Nat) :
    ∀ (es : List (TextLayoutCacheKey × LayoutOut)) (m : Nat)
      (es' : List (TextLayoutCacheKey × LayoutOut)) (m' : Nat),
      evictOldest ks vs need maxSize es m = .ok (es', m') →
      es'.Sublist es ∧ m' + need ≤ maxSize ∧
        (m = cacheBytes ks vs es → m' = cacheBytes ks vs es') := by
  intro es
  induction es with
  | nil =>
    intro m es' m' h
    unfold evictOldest at h
    by_cases hc : m + need > maxSize
    · rw [if_pos hc] at h; exact Except.noConfusion h
    · rw [if_neg hc] at h
      obtain ⟨h1, h2⟩ := Prod.mk.inj (Except.ok.inj h)
      subst h1; subst h2
      exact ⟨List.Sublist.refl _, by omega, fun hm => hm⟩
  | cons e rest ih =>
    intro m es' m' h
    unfold evictOldest at h
    by_cases hc : m + need > maxSize
    · rw [if_pos hc] at h
      obtain ⟨hsub, hb, hs⟩ := ih (m - entrySize ks vs e) es' m' h
      refine ⟨hsub.cons e, hb, fun hm => hs ?_⟩
      rw [cacheBytes_cons] at hm
      omega
    · rw [if_neg hc] at h
      obtain ⟨h1, h2⟩ := Prod.mk.inj (Except.ok.inj h)
      subst h1; subst h2
      exact ⟨List.Sublist.refl _, by omega, fun hm => hm⟩

lemma evictOldest_ok (ks : Nat) (vs : LayoutOut → Nat) (need maxSize : Nat) :
    ∀ (es : List (TextLayoutCacheKey × LayoutOut)) (m : Nat),
      m = cacheBytes ks vs es → need ≤ maxSize →
      ∃ es' m', evictOldest ks vs need maxSize es m = .ok (es', m') := by
  intro es
  induction es with
  | nil =>
    intro m hm hn
    unfold evictOldest
    rw [cacheBytes_nil] at hm
    rw [if_neg (by omega)]
    exact ⟨[], m, rfl⟩
  | cons e rest ih =>
    intro m hm hn
    unfold evictOldest
    by_cases hc : m + need > maxSize
    · rw [if_pos hc]
      apply ih
      · rw [cacheBytes_cons] at hm
        omega
      · exact hn
    · rw [if_neg hc]
      exact ⟨e :: rest, m, rfl⟩

lemma pairwise_key_unique {es : List (TextLayoutCacheKey × LayoutOut)}
    (hpw : es.Pairwise (fun a b => a.1 ≠ b.1)) :
    ∀ a ∈ es, ∀ b ∈ es, a.1 = b.1 → a = b := by
  induction es with
  | nil => simp
  | cons x xs ih =>
    obtain ⟨hx, hxs⟩ := List.pairwise_cons.mp hpw
    intro a ha b hb heq
    rcases List.mem_cons.mp ha with rfl | ha' <;> rcases List.mem_cons.mp hb with rfl | hb'
    · rfl
    · exact absurd heq (hx b hb')
    · exact absurd heq.symm (hx a ha')
    · exact ih hxs a ha' b hb' heq

lemma getValue_hit
    {shape : PaintRec → List Nat → Bool → List ScriptRunResult}
    {bidiOracle : List Nat → Nat → Nat → BidiEnv}
    {ks : Nat} {vs : LayoutOut → Nat}
    {st : CacheState} {paint : PaintRec} {text : List Nat}
    {start count contextCount : Nat} {dirFlags : Int}
    {pv v : LayoutOut} {pes : List (TextLayoutCacheKey × LayoutOut)}
    {hit : Bool} {s' : CacheState}
    (hg : gcGet st.entries (mkKey paint text start count contextCount dirFlags) =
      some (pv, pes))
    (h : getValue shape bidiOracle ks vs st paint text start count contextCount dirFlags =
      .ok (v, hit, s')) :
    v = pv ∧ hit = true ∧ s' = { st with entries := pes } := by
  simp only [getValue, hg, Except.ok.injEq, Prod.mk.injEq] at h
  exact ⟨h.1.symm, h.2.1.symm, h.2.2.symm⟩

lemma getValue_preserves
    (shape : PaintRec → List Nat → Bool → List ScriptRunResult)
    (bidiOracle : List Nat → Nat → Nat → BidiEnv)
    (ks : Nat) (vs : LayoutOut → Nat)
    (st : CacheState) (paint : PaintRec) (text : List Nat)
    (start count contextCount : Nat) (dirFlags : Int)
    {v : LayoutOut} {hit : Bool} {s' : CacheState}
    (hwf : CacheWF ks vs st)
    (hkey : KeyWF (mkKey paint text start count contextCount dirFlags))
    (h : getValue shape bidiOracle ks vs st paint text start count contextCount dirFlags =
      .ok (v, hit, s')) :
    CacheWF ks vs s' ∧ s'.maxSize = st.maxSize ∧
      (st.mSize ≤ st.maxSize → s'.mSize ≤ s'.maxSize) ∧
      (CacheCoherent shape bidiOracle st →
        CacheCoherent shape bidiOracle s' ∧
          v = specValueOfKey shape bidiOracle
            (mkKey paint text start count contextCount dirFlags)) := by
  obtain ⟨hsum, hkeys, hpw⟩ := hwf
  simp only [getValue] at h
  cases hg : gcGet st.entries (mkKey paint text start count contextCount dirFlags) with
  | some p =>
    obtain ⟨pv, pes⟩ := p
    rw [hg] at h
    simp only [Except.ok.injEq, Prod.mk.injEq] at h
    obtain ⟨hv, hhit, hs⟩ := h
    subst hs
    obtain ⟨e, hcmp, hmem, hve, hperm⟩ := gcGet_eq_some_spec hg
    have hek : mkKey paint text start count contextCount dirFlags = e.1 :=
      (compare_eq_zero_iff hkey (hkeys e hmem)).mp hcmp
    refine ⟨⟨?_, ?_, ?_⟩, rfl, fun hb => hb, fun hcoh => ⟨?_, ?_⟩⟩
    · exact hsum.trans (cacheBytes_perm ks vs hperm).symm
    · intro e' he'
      exact hkeys e' (hperm.subset he')
    · exact (hperm.pairwise_iff (fun hxy => Ne.symm hxy)).mpr hpw
    · intro e' he'
      exact hcoh e' (hperm.subset he')
    · calc v = e.2 := by rw [← hv, hve]
        _ = specValueOfKey shape bidiOracle e.1 := hcoh e hmem
        _ = specValueOfKey shape bidiOracle (mkKey paint text start count contextCount dirFlags) := by
            rw [hek]
  | none =>
    rw [hg] at h
    simp only [] at h
    have hmiss := (gcGet_eq_none_iff st.entries
      (mkKey paint text start count contextCount dirFlags)).mp hg
    have hself : TextLayoutCacheKey.compare (mkKey paint text start count contextCount dirFlags)
        (mkKey paint text start count contextCount dirFlags) = 0 :=
      (compare_eq_zero_iff hkey hkey).mpr rfl
    split at h
    · -- size fits the budget: eviction then insertion
      rename_i hsz
      split at h
      · -- evictOldest raised the fatal check: contradicts being ok
        exact Except.noConfusion h
      · rename_i es1 m1 hev
        split at h
        · -- gcPut failed: contradicts being ok
          exact Except.noConfusion h
        · rename_i es2 hput
          simp only [Except.ok.injEq, Prod.mk.injEq] at h
          obtain ⟨hv, hhit, hs⟩ := h
          subst hs
          obtain ⟨hsub, hbound, hsum1⟩ := evictOldest_ok_spec ks vs _ st.maxSize
            st.entries st.mSize es1 m1 hev
          obtain ⟨hnone1, hes2⟩ := (gcPut_eq_some_iff es1
            (mkKey paint text start count contextCount dirFlags) _ es2).mp hput
          subst hes2
          have hm1 := hsum1 hsum
          have hnewkey : ∀ a ∈ es1,
              a.1 ≠ (mkKey paint text start count contextCount dirFlags) := by
            intro a ha hak
            exact hmiss a (hsub.subset ha) (by rw [hak]; exact hself)
          refine ⟨⟨?_, ?_, ?_⟩, rfl, fun _ => ?_, fun hcoh => ⟨?_, hv.symm⟩⟩
          · simp only [cacheBytes_append, cacheBytes_cons, cacheBytes_nil, entrySize]
            omega
          · intro e' he'
            rcases List.mem_append.mp he' with he' | he'
            · exact hkeys e' (hsub.subset he')
            · rw [List.mem_singleton.mp he']
              exact hkey
          · refine List.pairwise_append.mpr ⟨hpw.sublist hsub, List.pairwise_singleton _ _, ?_⟩
            intro a ha b hb
            rw [List.mem_singleton.mp hb]
            exact hnewkey a ha
          · exact hbound
          · intro e' he'
            rcases List.mem_append.mp he' with he' | he'
            · exact hcoh e' (hsub.subset he')
            · rw [List.mem_singleton.mp he']
              rfl
    · -- the entry is bigger than the whole budget: no insertion
      rename_i hsz
      simp only [Except.ok.injEq, Prod.mk.injEq] at h
      obtain ⟨hv, hhit, hs⟩ := h
      subst hs
      exact ⟨⟨hsum, hkeys, hpw⟩, rfl, fun hb => hb, fun hcoh => ⟨hcoh, hv.symm⟩⟩

/-! Claims C4, C5, C6 and C10 about `TextLayoutCache::getValue`. -/

/-- C4: after every completed `getValue` call on a well-formed cache within
budget, the byte account still equals the sum of `key.size() + value.size()`
over the cached entries and stays within `maxBytes` (evicting oldest entries
first when an entry of size `s ≤ maxBytes` is inserted); the budget itself is
unchanged. -/
theorem C4_budget_invariant
    (shape : PaintRec → List Nat → Bool → List ScriptRunResult)
    (bidiOracle : List Nat → Nat → Nat → BidiEnv)
    (ks : Nat) (vs : LayoutOut → Nat)
    (st : CacheState) (paint : PaintRec) (text : List Nat)
    (start count contextCount : Nat) (dirFlags : Int)
    {v : LayoutOut} {hit : Bool} {s' : CacheState}
    (hwf : CacheWF ks vs st)
    (hkey : KeyWF (mkKey paint text start count contextCount dirFlags))
    (hbudget : st.mSize ≤ st.maxSize)
    (h : getValue shape bidiOracle ks vs st paint text start count contextCount dirFlags =
      .ok (v, hit, s')) :
    s'.mSize = cacheBytes ks vs s'.entries ∧ s'.mSize ≤ s'.maxSize ∧
      s'.maxSize = st.maxSize := by
  obtain ⟨hwf', hmax, hb, -⟩ := getValue_preserves shape bidiOracle ks vs st paint text
    start count contextCount dirFlags hwf hkey h
  exact ⟨hwf'.1, hb hbudget, hmax⟩

/-- Witness for C4: inserting into an empty cache of budget 100. -/
theorem C4_budget_invariant_witness :
    (⟨[(mkKey exPaint [65] 0 1 1 0, ⟨[0], 0, [], []⟩)], 2, 100⟩ : CacheState).mSize =
        cacheBytes 0 exValueSize
          (⟨[(mkKey exPaint [65] 0 1 1 0, ⟨[0], 0, [], []⟩)], 2, 100⟩ : CacheState).entries ∧
      (⟨[(mkKey exPaint [65] 0 1 1 0, ⟨[0], 0, [], []⟩)], 2, 100⟩ : CacheState).mSize ≤
        (⟨[(mkKey exPaint [65] 0 1 1 0, ⟨[0], 0, [], []⟩)], 2, 100⟩ : CacheState).maxSize ∧
      (⟨[(mkKey exPaint [65] 0 1 1 0, ⟨[0], 0, [], []⟩)], 2, 100⟩ : CacheState).maxSize =
        (⟨[], 0, 100⟩ : CacheState).maxSize :=
  C4_budget_invariant exShape exBidi 0 exValueSize ⟨[], 0, 100⟩ exPaint [65] 0 1 1 0
    (by decide) (by decide) (by decide) rfl

/-- C5: an oversize request (entry size `key.size() + value.size()` above the
whole budget) on a miss still computes and returns the value, with the `Bool`
recording a computation (not a hit), and leaves the cache state literally
unchanged: no insertion, no eviction, `mSize` untouched, all entries
preserved. -/
theorem C5_oversize_bypass
    (shape : PaintRec → List Nat → Bool → List ScriptRunResult)
    (bidiOracle : List Nat → Nat → Nat → BidiEnv)
    (ks : Nat) (vs : LayoutOut → Nat)
    (st : CacheState) (paint : PaintRec) (text : List Nat)
    (start count contextCount : Nat) (dirFlags : Int)
    (hmiss : gcGet st.entries (mkKey paint text start count contextCount dirFlags) = none)
    (hbig : st.maxSize < keyGetSize ks (mkKey paint text start count contextCount dirFlags) +
      vs (computeValues shape bidiOracle paint
        (mkKey paint text start count contextCount dirFlags).textCopy start count
        contextCount dirFlags)) :
    getValue shape bidiOracle ks vs st paint text start count contextCount dirFlags =
      .ok (computeValues shape bidiOracle paint
        (mkKey paint text start count contextCount dirFlags).textCopy start count
        contextCount dirFlags, false, st) := by
  simp only [getValue, hmiss]
  rw [if_neg (by omega)]

/-- Witness for C5: a 1000-byte value against a 100-byte budget. -/
theorem C5_oversize_bypass_witness :
    getValue exShape exBidi 0 exBigValueSize ⟨[], 0, 100⟩ exPaint [65] 0 1 1 0 =
      .ok (computeValues exShape exBidi exPaint
        (mkKey exPaint [65] 0 1 1 0).textCopy 0 1 1 0, false, ⟨[], 0, 100⟩) :=
  C5_oversize_bypass exShape exBidi 0 exBigValueSize ⟨[], 0, 100⟩ exPaint [65] 0 1 1 0
    rfl (by decide)

/-- C10: on any well-formed cache state, `getValue` always returns a value —
for every paint, window, direction flag, bidi-oracle outcome (including
Unicode failures) and shaper outcome (including empty or NULL-advance runs),
and whether or not the entry is cached or even cacheable; neither of the two
fatal cache-corruption checks can fire. -/
theorem C10_getValue_total
    (shape : PaintRec → List Nat → Bool → List ScriptRunResult)
    (bidiOracle : List Nat → Nat → Nat → BidiEnv)
    (ks : Nat) (vs : LayoutOut → Nat)
    (st : CacheState) (paint : PaintRec) (text : List Nat)
    (start count contextCount : Nat) (dirFlags : Int)
    (hwf : CacheWF ks vs st) :
    ∃ v hit s',
      getValue shape bidiOracle ks vs st paint text start count contextCount dirFlags =
        .ok (v, hit, s') := by
  obtain ⟨hsum, hkeys, hpw⟩ := hwf
  cases hg : gcGet st.entries (mkKey paint text start count contextCount dirFlags) with
  | some p =>
    obtain ⟨pv, pes⟩ := p
    exact ⟨pv, true, { st with entries := pes }, by simp only [getValue, hg]⟩
  | none =>
    by_cases hsz : keyGetSize ks (mkKey paint text start count contextCount dirFlags) +
        vs (computeValues shape bidiOracle paint
          (mkKey paint text start count contextCount dirFlags).textCopy start count
          contextCount dirFlags) ≤ st.maxSize
    · obtain ⟨es1, m1, hev⟩ := evictOldest_ok ks vs _ st.maxSize st.entries st.mSize hsum hsz
      obtain ⟨hsub, -, -⟩ := evictOldest_ok_spec ks vs _ st.maxSize st.entries st.mSize
        es1 m1 hev
      have hmiss := (gcGet_eq_none_iff st.entries
        (mkKey paint text start count contextCount dirFlags)).mp hg
      have hput := (gcPut_eq_some_iff es1
        (mkKey paint text start count contextCount dirFlags)
        (computeValues shape bidiOracle paint
          (mkKey paint text start count contextCount dirFlags).textCopy start count
          contextCount dirFlags)
        (es1 ++ [(mkKey paint text start count contextCount dirFlags,
          computeValues shape bidiOracle paint
            (mkKey paint text start count contextCount dirFlags).textCopy start count
            contextCount dirFlags)])).mpr
        ⟨fun e he => hmiss e (hsub.subset he), rfl⟩
      refine ⟨computeValues shape bidiOracle paint
          (mkKey paint text start count contextCount dirFlags).textCopy start count
          contextCount dirFlags, false,
        { st with
            entries := es1 ++ [(mkKey paint text start count contextCount dirFlags,
              computeValues shape bidiOracle paint
                (mkKey paint text start count contextCount dirFlags).textCopy start count
                contextCount dirFlags)]
            mSize := m1 + (keyGetSize ks (mkKey paint text start count contextCount dirFlags) +
              vs (computeValues shape bidiOracle paint
                (mkKey paint text start count contextCount dirFlags).textCopy start count
                contextCount dirFlags)) }, ?_⟩
      simp only [getValue, hg, if_pos hsz, hev, hput]
    · refine ⟨computeValues shape bidiOracle paint
          (mkKey paint text start count contextCount dirFlags).textCopy start count
          contextCount dirFlags, false, st, ?_⟩
      simp only [getValue, hg]
      rw [if_neg hsz]

/-- Witness for C10 at a concrete request on an empty cache. -/
theorem C10_getValue_total_witness :
    ∃ v hit s',
      getValue exShape exBidi 0 exValueSize ⟨[], 0, 100⟩ exPaint [65] 0 1 1 0 =
        .ok (v, hit, s') :=
  C10_getValue_total exShape exBidi 0 exValueSize ⟨[], 0, 100⟩ exPaint [65] 0 1 1 0
    (by decide)

set_option maxHeartbeats 2000000 in
/-- C6: two `getValue` calls whose arguments build equal keys return the same
`LayoutValue`; moreover, if the entry holding the first call's value is still
cached when the second call runs, the second call takes the hit branch
(recomputing nothing) and returns exactly the stored value. -/
theorem C6_hit_determinism
    (shape : PaintRec → List Nat → Bool → List ScriptRunResult)
    (bidiOracle : List Nat → Nat → Nat → BidiEnv)
    (ks : Nat) (vs : LayoutOut → Nat) (s : CacheState)
    (paint1 : PaintRec) (text1 : List Nat) (start1 count1 cc1 : Nat) (df1 : Int)
    (paint2 : PaintRec) (text2 : List Nat) (start2 count2 cc2 : Nat) (df2 : Int)
    {v1 v2 : LayoutOut} {hit1 hit2 : Bool} {s1 s2 : CacheState}
    (hwf : CacheWF ks vs s) (hcoh : CacheCoherent shape bidiOracle s)
    (hkeq : mkKey paint1 text1 start1 count1 cc1 df1 =
      mkKey paint2 text2 start2 count2 cc2 df2)
    (hk1 : KeyWF (mkKey paint1 text1 start1 count1 cc1 df1))
    (h1 : getValue shape bidiOracle ks vs s paint1 text1 start1 count1 cc1 df1 =
      .ok (v1, hit1, s1))
    (h2 : getValue shape bidiOracle ks vs s1 paint2 text2 start2 count2 cc2 df2 =
      .ok (v2, hit2, s2)) :
    v2 = v1 ∧
      ((mkKey paint1 text1 start1 count1 cc1 df1, v1) ∈ s1.entries →
        hit2 = true ∧ v2 = v1) := by
  obtain ⟨hwf1, -, -, hcv1⟩ := getValue_preserves shape bidiOracle ks vs s paint1 text1
    start1 count1 cc1 df1 hwf hk1 h1
  obtain ⟨hcoh1, hv1⟩ := hcv1 hcoh
  have hk2 : KeyWF (mkKey paint2 text2 start2 count2 cc2 df2) := hkeq ▸ hk1
  obtain ⟨-, -, -, hcv2⟩ := getValue_preserves shape bidiOracle ks vs s1 paint2 text2
    start2 count2 cc2 df2 hwf1 hk2 h2
  obtain ⟨-, hv2⟩ := hcv2 hcoh1
  have hvv : v2 = v1 := by rw [hv2, ← hkeq, ← hv1]
  refine ⟨hvv, fun hmem => ⟨?_, hvv⟩⟩
  cases hg : gcGet s1.entries (mkKey paint2 text2 start2 count2 cc2 df2) with
  | none =>
    have hall := (gcGet_eq_none_iff s1.entries
      (mkKey paint2 text2 start2 count2 cc2 df2)).mp hg
    have hself : TextLayoutCacheKey.compare (mkKey paint2 text2 start2 count2 cc2 df2)
        (mkKey paint2 text2 start2 count2 cc2 df2) = 0 :=
      (compare_eq_zero_iff hk2 hk2).mpr rfl
    have hmem2 : (mkKey paint2 text2 start2 count2 cc2 df2, v1) ∈ s1.entries :=
      hkeq ▸ hmem
    exact absurd hself (hall _ hmem2)
  | some p =>
    obtain ⟨pv, pes⟩ := p
    obtain ⟨-, hh, -⟩ := getValue_hit hg h2
    exact hh

/-- Witness for C6: an insert into an empty cache followed by a hit on the
same arguments. -/
theorem C6_hit_determinism_witness :
    (⟨[0], 0, [], []⟩ : LayoutOut) = ⟨[0], 0, [], []⟩ ∧
      ((mkKey exPaint [65] 0 1 1 0, (⟨[0], 0, [], []⟩ : LayoutOut)) ∈
          (⟨[(mkKey exPaint [65] 0 1 1 0, ⟨[0], 0, [], []⟩)], 2, 100⟩ : CacheState).entries →
        true = true ∧ (⟨[0], 0, [], []⟩ : LayoutOut) = ⟨[0], 0, [], []⟩) :=
  C6_hit_determinism exShape exBidi 0 exValueSize ⟨[], 0, 100⟩
    exPaint [65] 0 1 1 0 exPaint [65] 0 1 1 0
    (by decide) (by decide) rfl (by decide) rfl rfl

/-! Facts about the cluster write-back of `computeRunValues`, leading to the
total-advance law for the single-run path (claim C3). -/

lemma getD_set_ne : ∀ (l : List JFloat) (i j : Nat) (v : JFloat), i ≠ j →
    (l.set i v).getD j 0 = l.getD j 0 := by
  intro l
  induction l with
  | nil => intro i j v _; rfl
  | cons x xs ih =>
    intro i j v hij
    cases i with
    | zero =>
      cases j with
      | zero => exact absurd rfl hij
      | succ j => simp
    | succ i =>
      cases j with
      | zero => simp
      | succ j => simpa using ih i j v (fun hc => hij (by rw [hc]))

lemma getD_replicate_zero : ∀ (n j : Nat), (List.replicate n (0 : JFloat)).getD j 0 = 0 := by
  intro n
  induction n with
  | zero => intro j; cases j <;> rfl
  | succ n ih =>
    intro j
    cases j with
    | zero => rfl
    | succ j => exact ih j

lemma sum_set_of_getD_zero : ∀ (l : List JFloat) (i : Nat) (v : JFloat), i < l.length →
    l.getD i 0 = 0 → (l.set i v).sum = l.sum + v := by
  intro l
  induction l with
  | nil => intro i v h _; simp at h
  | cons x xs ih =>
    intro i v h hz
    cases i with
    | zero =>
      simp only [List.getD_cons_zero] at hz
      simp only [List.set_cons_zero, List.sum_cons, hz]
      ring
    | succ i =>
      simp only [List.getD_cons_succ] at hz
      have hlen : i < xs.length := by
        simp only [List.length_cons] at h
        omega
      simp only [List.set_cons_succ, List.sum_cons, ih i v hlen hz]
      ring

lemma applyWrites_length : ∀ (ws : List (Nat × JFloat)) (l : List JFloat),
    (ws.foldl (fun l w => l.set w.1 w.2) l).length = l.length := by
  intro ws
  induction ws with
  | nil => intro l; rfl
  | cons w ws ih =>
    intro l
    rw [List.foldl_cons, ih, List.length_set]

lemma applyWrites_getD_ne : ∀ (ws : List (Nat × JFloat)) (l : List JFloat) (j : Nat),
    (∀ w ∈ ws, w.1 ≠ j) →
    (ws.foldl (fun l w => l.set w.1 w.2) l).getD j 0 = l.getD j 0 := by
  intro ws
  induction ws with
  | nil => intro l j _; rfl
  | cons w ws ih =>
    intro l j hall
    rw [List.foldl_cons, ih (l.set w.1 w.2) j (fun w' hw' => hall w' (List.mem_cons_of_mem _ hw'))]
    exact getD_set_ne l w.1 j w.2 (hall w (List.mem_cons_self _ _))

lemma applyWrites_sum : ∀ (ws : List (Nat × JFloat)) (l : List JFloat),
    ws.Pairwise (fun a b => a.1 ≠ b.1) →
    (∀ w ∈ ws, w.1 < l.length ∧ l.getD w.1 0 = 0) →
    (ws.foldl (fun l w => l.set w.1 w.2) l).sum = l.sum + (ws.map Prod.snd).sum := by
  intro ws
  induction ws with
  | nil => intro l _ _; simp
  | cons w ws ih =>
    intro l hpw hall
    obtain ⟨hw, hws⟩ := List.pairwise_cons.mp hpw
    obtain ⟨hwlt, hwz⟩ := hall w (List.mem_cons_self _ _)
    rw [List.foldl_cons, ih (l.set w.1 w.2) hws ?_]
    · rw [sum_set_of_getD_zero l w.1 w.2 hwlt hwz]
      simp only [List.map_cons, List.sum_cons]
      ring
    · intro w' hw'
      obtain ⟨h1, h2⟩ := hall w' (List.mem_cons_of_mem _ hw')
      refine ⟨by rw [List.length_set]; exact h1, ?_⟩
      rw [getD_set_ne l w.1 w'.1 w.2 (hw w' hw')]
      exact h2

lemma clusterWritesFrom_bounds (sr : ScriptRunResult) (adv : List Int) :
    ∀ (fuel i cs : Nat), cs ≤ i →
      (∀ w ∈ clusterWritesFrom sr adv fuel i cs,
        sr.pos + cs ≤ w.1 ∧ w.1 < sr.pos + (i + fuel)) ∧
      (clusterWritesFrom sr adv fuel i cs).Pairwise (fun a b => a.1 < b.1) := by
  intro fuel
  induction fuel with
  | zero =>
    intro i cs _
    exact ⟨by intro w hw; simp [clusterWritesFrom] at hw, by simp [clusterWritesFrom]⟩
  | succ fuel ih =>
    intro i cs hcs
    simp only [clusterWritesFrom]
    by_cases hc : sr.logClusters.getD i 0 ≠
        (if i = sr.length - 1 then sr.numGlyphs else sr.logClusters.getD (i + 1) 0)
    · rw [if_pos hc]
      obtain ⟨ihb, ihp⟩ := ih (i + 1) (i + 1) (Nat.le_refl _)
      constructor
      · intro w hw
        rcases List.mem_cons.mp hw with rfl | hw'
        · exact ⟨Nat.le_refl _, by omega⟩
        · obtain ⟨h1, h2⟩ := ihb w hw'
          exact ⟨by omega, by omega⟩
      · refine List.pairwise_cons.mpr ⟨?_, ihp⟩
        intro w hw
        obtain ⟨h1, -⟩ := ihb w hw
        simp only []
        omega
    · rw [if_neg hc]
      obtain ⟨ihb, ihp⟩ := ih (i + 1) cs (by omega)
      refine ⟨?_, ihp⟩
      intro w hw
      obtain ⟨h1, h2⟩ := ihb w hw
      exact ⟨h1, by omega⟩

lemma clusterWrites_bounds (sr : ScriptRunResult) (adv : List Int) :
    (∀ w ∈ clusterWrites sr adv, sr.pos ≤ w.1 ∧ w.1 < sr.pos + sr.length) ∧
      (clusterWrites sr adv).Pairwise (fun a b => a.1 < b.1) := by
  obtain ⟨hb, hp⟩ := clusterWritesFrom_bounds sr adv sr.length 0 0 (Nat.le_refl _)
  refine ⟨?_, hp⟩
  intro w hw
  obtain ⟨h1, h2⟩ := hb w hw
  exact ⟨by omega, by omega⟩

lemma processScriptRun_spec (isRTL : Bool) (skewX : JFloat) (st : LayoutOut)
    (sr : ScriptRunResult)
    (hlen : sr.pos + sr.length ≤ st.advances.length)
    (hzero : ∀ j, sr.pos ≤ j → j < sr.pos + sr.length → st.advances.getD j 0 = 0) :
    (processScriptRun isRTL skewX st sr).advances.length = st.advances.length ∧
    (processScriptRun isRTL skewX st sr).advances.sum - st.advances.sum =
      (processScriptRun isRTL skewX st sr).totalAdvance - st.totalAdvance ∧
    (∀ j, (j < sr.pos ∨ sr.pos + sr.length ≤ j) →
      (processScriptRun isRTL skewX st sr).advances.getD j 0 = st.advances.getD j 0) := by
  unfold processScriptRun
  cases sr.advances with
  | none =>
    dsimp only
    exact ⟨rfl, by ring, fun j _ => rfl⟩
  | some adv =>
    dsimp only
    by_cases hg : sr.numGlyphs = 0
    · rw [if_pos hg]
      exact ⟨rfl, by ring, fun j _ => rfl⟩
    · rw [if_neg hg]
      dsimp only
      obtain ⟨hwb, hwp⟩ := clusterWrites_bounds sr adv
      have hwall : ∀ w ∈ clusterWrites sr adv,
          w.1 < st.advances.length ∧ st.advances.getD w.1 0 = 0 := by
        intro w hw
        obtain ⟨h1, h2⟩ := hwb w hw
        exact ⟨by omega, hzero w.1 h1 h2⟩
      refine ⟨applyWrites_length _ _, ?_, ?_⟩
      · rw [applyWrites_sum (clusterWrites sr adv) st.advances
          (hwp.imp (fun hab => Nat.ne_of_lt hab)) hwall]
        ring
      · intro j hj
        apply applyWrites_getD_ne
        intro w hw
        obtain ⟨h1, h2⟩ := hwb w hw
        omega

lemma foldl_processScriptRun_spec (isRTL : Bool) (skewX : JFloat) :
    ∀ (srs : List ScriptRunResult) (st : LayoutOut),
      (∀ sr ∈ srs, sr.pos + sr.length ≤ st.advances.length) →
      srs.Pairwise (fun a b => a.pos + a.length ≤ b.pos ∨ b.pos + b.length ≤ a.pos) →
      (∀ sr ∈ srs, ∀ j, sr.pos ≤ j → j < sr.pos + sr.length → st.advances.getD j 0 = 0) →
      (srs.foldl (processScriptRun isRTL skewX) st).advances.length = st.advances.length ∧
      (srs.foldl (processScriptRun isRTL skewX) st).advances.sum - st.advances.sum =
        (srs.foldl (processScriptRun isRTL skewX) st).totalAdvance - st.totalAdvance := by
  intro srs
  induction srs with
  | nil =>
    intro st _ _ _
    refine ⟨rfl, ?_⟩
    rw [List.foldl_nil]
    ring
  | cons sr srs ih =>
    intro st hlen hpw hzero
    obtain ⟨hL, hS, hout⟩ := processScriptRun_spec isRTL skewX st sr
      (hlen sr (List.mem_cons_self _ _)) (hzero sr (List.mem_cons_self _ _))
    obtain ⟨hhead, hpw'⟩ := List.pairwise_cons.mp hpw
    obtain ⟨ihL, ihS⟩ := ih (processScriptRun isRTL skewX st sr)
      (fun sr' hsr' => by rw [hL]; exact hlen sr' (List.mem_cons_of_mem _ hsr')) hpw'
      (fun sr' hsr' j hj1 hj2 => by
        rw [hout j (by rcases hhead sr' hsr' with h | h <;> omega)]
        exact hzero sr' (List.mem_cons_of_mem _ hsr') j hj1 hj2)
    rw [List.foldl_cons]
    exact ⟨ihL.trans hL, by linarith [hS, ihS]⟩

lemma computeRunValues_sum_empty_start (srs : List ScriptRunResult) (count : Nat)
    (isRTL : Bool) (skewX : JFloat) (hwf : ScriptRunsWF srs count) :
    (computeRunValues srs count isRTL skewX ⟨[], 0, [], []⟩).advances.sum =
      (computeRunValues srs count isRTL skewX ⟨[], 0, [], []⟩).totalAdvance := by
  obtain ⟨hlen, hpw⟩ := hwf
  unfold computeRunValues
  by_cases hc : count = 0
  · simp [hc]
  · rw [if_neg hc]
    dsimp only [List.nil_append]
    obtain ⟨-, hS⟩ := foldl_processScriptRun_spec isRTL skewX srs
      ⟨List.replicate count (0 : JFloat), 0, [], []⟩
      (fun sr hsr => by simpa using hlen sr hsr) hpw
      (fun sr hsr j _ _ => getD_replicate_zero count j)
    have hz : (List.replicate count (0 : JFloat)).sum = 0 := by
      simp
    dsimp only at hS
    linarith [hS, hz]

/-- C3 counterexample: with two bidi runs of one character each, the second
run's cluster write lands at index `startScriptRun + clusterStart = 0` of the
shared advances vector — a run-relative index — overwriting the first run's
advance, so the final `totalAdvance` is 2.0 (131072 in 16.16 units) while the
advances sum to 1.0 (65536): the total-advance law fails in the multi-run
path, far beyond any rounding tolerance. -/
theorem C3_total_advance_counterexample :
    (computeValues exShapeOne exBidiTwoRuns exPaint [65, 66] 0 2 2 0).totalAdvance = 131072 ∧
    (computeValues exShapeOne exBidiTwoRuns exPaint [65, 66] 0 2 2 0).advances.sum = 65536 ∧
    (131072 : Int) ≠ 65536 := by
  decide

/-- C3 (amended): whenever `computeValues` takes the single-run path (forced
direction, one resolved bidi run, or any fallback) and the shaper's script
runs form a partition-compatible family inside the run, the returned value
satisfies `totalAdvance = sum(advances)` exactly (in the exact-arithmetic
model); in the multi-bidi-run path the law can fail because cluster advances
are written at run-relative indices. -/
theorem C3_total_advance_single_run
    (shape : PaintRec → List Nat → Bool → List ScriptRunResult)
    (bidiOracle : List Nat → Nat → Nat → BidiEnv)
    (paint : PaintRec) (chars : List Nat)
    (start count contextCount : Nat) (dirFlags : Int) (isRTL : Bool)
    (hplan : resolveRunPlan dirFlags
      (bidiOracle chars contextCount (bidiReqOf dirFlags)) start count = .single isRTL)
    (hwf : ScriptRunsWF (shape paint ((chars.drop start).take count) isRTL) count) :
    (computeValues shape bidiOracle paint chars start count contextCount
        dirFlags).advances.sum =
      (computeValues shape bidiOracle paint chars start count contextCount
        dirFlags).totalAdvance := by
  unfold computeValues
  by_cases hc : count = 0
  · simp [hc]
  · rw [if_neg hc]
    simp only [hplan]
    exact computeRunValues_sum_empty_start _ count isRTL paint.textSkewX hwf

/-- Witness for C3 at a concrete forced-LTR request. -/
theorem C3_total_advance_single_run_witness :
    resolveRunPlan 4 (exBidi [65] 1 (bidiReqOf 4)) 0 1 = .single false ∧
    ScriptRunsWF (exShapeOne exPaint (([65].drop 0).take 1) false) 1 ∧
    ((computeValues exShapeOne exBidi exPaint [65] 0 1 1 4).advances.sum =
      (computeValues exShapeOne exBidi exPaint [65] 0 1 1 4).totalAdvance) :=
  ⟨by decide, by decide,
    C3_total_advance_single_run exShapeOne exBidi exPaint [65] 0 1 1 4 false
      (by decide) (by decide)⟩

/-! Facts about advance-array lengths and the clipping of visual runs,
leading to the advance-arity law (claim C1). -/

lemma processScriptRun_length (isRTL : Bool) (skewX : JFloat) (st : LayoutOut)
    (sr : ScriptRunResult) :
    (processScriptRun isRTL skewX st sr).advances.length = st.advances.length := by
  unfold processScriptRun
  cases sr.advances with
  | none => rfl
  | some adv =>
    dsimp only
    by_cases hg : sr.numGlyphs = 0
    · rw [if_pos hg]
    · rw [if_neg hg]
      dsimp only
      exact applyWrites_length _ _

lemma foldl_processScriptRun_length (isRTL : Bool) (skewX : JFloat) :
    ∀ (srs : List ScriptRunResult) (st : LayoutOut),
      (srs.foldl (processScriptRun isRTL skewX) st).advances.length =
        st.advances.length := by
  intro srs
  induction srs with
  | nil => intro st; rfl
  | cons sr srs ih =>
    intro st
    rw [List.foldl_cons, ih, processScriptRun_length]

lemma computeRunValues_length (srs : List ScriptRunResult) (count : Nat) (isRTL : Bool)
    (skewX : JFloat) (st : LayoutOut) :
    (computeRunValues srs count isRTL skewX st).advances.length =
      st.advances.length + count := by
  unfold computeRunValues
  by_cases hc : count = 0
  · simp [hc]
  · rw [if_neg hc]
    rw [foldl_processScriptRun_length]
    simp

lemma foldl_computeRunValues_length
    (shape : PaintRec → List Nat → Bool → List ScriptRunResult)
    (paint : PaintRec) (skewX : JFloat) (chars : List Nat) :
    ∀ (rs : List (Nat × Nat × Bool)) (st : LayoutOut),
      ((rs.foldl (fun st r =>
          computeRunValues (shape paint ((chars.drop r.1).take r.2.1) r.2.2) r.2.1 r.2.2
            skewX st) st).advances.length) =
        st.advances.length + (rs.map (fun r => r.2.1)).sum := by
  intro rs
  induction rs with
  | nil => intro st; simp
  | cons r rs ih =>
    intro st
    rw [List.foldl_cons, ih, computeRunValues_length]
    simp only [List.map_cons, List.sum_cons]
    omega

lemma collectRuns_eq_some_of_valid :
    ∀ (runs : List (Int × Int × Bool)) (a b : Int),
      (∀ r ∈ runs, 0 ≤ r.1 ∧ 0 < r.2.1) →
      ∃ cs, collectRuns runs a b = some cs ∧
        (cs.map (fun c => c.2.1)).sum =
          (runs.map (fun r => (min (r.1 + r.2.1) b - max r.1 a).toNat)).sum := by
  intro runs
  induction runs with
  | nil => intro a b _; exact ⟨[], rfl, rfl⟩
  | cons r rest ih =>
    intro a b hval
    obtain ⟨h0, hl⟩ := hval r (List.mem_cons_self _ _)
    obtain ⟨cs, hcs, hsum⟩ := ih a b (fun r' hr' => hval r' (List.mem_cons_of_mem _ hr'))
    obtain ⟨s, l, d⟩ := r
    simp only [] at h0 hl
    unfold collectRuns
    rw [if_neg (by omega)]
    by_cases h1 : s ≥ b
    · rw [if_pos h1, hcs]
      refine ⟨cs, rfl, ?_⟩
      rw [hsum]
      simp only [List.map_cons, List.sum_cons]
      omega
    · rw [if_neg h1]
      by_cases h2 : s + l ≤ a
      · rw [if_pos h2, hcs]
        refine ⟨cs, rfl, ?_⟩
        rw [hsum]
        simp only [List.map_cons, List.sum_cons]
        omega
      · rw [if_neg h2]
        refine ⟨((max s a).toNat, (min (s + l) b - max s a).toNat, d) :: cs, ?_, ?_⟩
        · rw [hcs]
          rfl
        · simp only [List.map_cons, List.sum_cons]
          omega

lemma sum_card_inter_of_partition :
    ∀ (iv : List (Nat × Nat)) (W : Finset Nat),
      iv.Pairwise (fun p q => p.1 + p.2 ≤ q.1 ∨ q.1 + q.2 ≤ p.1) →
      (∀ x ∈ W, ∃ p ∈ iv, p.1 ≤ x ∧ x < p.1 + p.2) →
      (iv.map (fun p => (Finset.Ico p.1 (p.1 + p.2) ∩ W).card)).sum = W.card := by
  intro iv
  induction iv with
  | nil =>
    intro W _ hcov
    have hW : W = ∅ := by
      refine Finset.eq_empty_of_forall_not_mem (fun x hx => ?_)
      obtain ⟨p, hp, -⟩ := hcov x hx
      simp at hp
    rw [hW]
    simp
  | cons p iv ih =>
    intro W hpw hcov
    obtain ⟨hp, hpw'⟩ := List.pairwise_cons.mp hpw
    rw [List.map_cons, List.sum_cons]
    have hmaps : iv.map (fun q => (Finset.Ico q.1 (q.1 + q.2) ∩ W).card) =
        iv.map (fun q =>
          (Finset.Ico q.1 (q.1 + q.2) ∩ (W \ Finset.Ico p.1 (p.1 + p.2))).card) := by
      apply List.map_congr_left
      intro q hq
      congr 1
      ext x
      simp only [Finset.mem_inter, Finset.mem_sdiff, Finset.mem_Ico]
      constructor
      · rintro ⟨hxq, hxW⟩
        refine ⟨hxq, hxW, ?_⟩
        rcases hp q hq with h | h <;> omega
      · rintro ⟨hxq, hxW, -⟩
        exact ⟨hxq, hxW⟩
    rw [hmaps]
    rw [ih (W \ Finset.Ico p.1 (p.1 + p.2)) hpw' ?_]
    · rw [Finset.inter_comm]
      exact Finset.card_inter_add_card_sdiff W (Finset.Ico p.1 (p.1 + p.2))
    · intro x hx
      obtain ⟨hxW, hxp⟩ := Finset.mem_sdiff.mp hx
      obtain ⟨q, hq, hqx⟩ := hcov x hxW
      rcases List.mem_cons.mp hq with rfl | hq'
      · exact absurd (Finset.mem_Ico.mpr (by omega)) hxp
      · exact ⟨q, hq', hqx⟩

lemma bidi_clipped_sum (env : BidiEnv) (contextCount start count : Nat)
    (hwf : BidiWF env contextCount) (hvalid : start + count ≤ contextCount) :
    ∃ cs, collectRuns (env.runs.take env.rc.toNat) (start : Int)
        ((start : Int) + (count : Int)) = some cs ∧
      (cs.map (fun c => c.2.1)).sum = count := by
  obtain ⟨hival, hipw, hicov⟩ := hwf
  obtain ⟨cs, hcs, hsum⟩ := collectRuns_eq_some_of_valid (env.runs.take env.rc.toNat)
    (start : Int) ((start : Int) + (count : Int)) hival
  refine ⟨cs, hcs, ?_⟩
  rw [hsum]
  have hstep : (env.runs.take env.rc.toNat).map
        (fun r => (min (r.1 + r.2.1) ((start : Int) + (count : Int)) -
          max r.1 (start : Int)).toNat) =
      (env.runs.take env.rc.toNat).map
        (fun r => (Finset.Ico r.1.toNat (r.1.toNat + r.2.1.toNat) ∩
          Finset.Ico start (start + count)).card) := by
    apply List.map_congr_left
    intro r hr
    obtain ⟨h0, hl⟩ := hival r hr
    rw [Finset.Ico_inter_Ico, Nat.card_Ico]
    omega
  rw [hstep]
  have hpart := sum_card_inter_of_partition
    ((env.runs.take env.rc.toNat).map (fun r => (r.1.toNat, r.2.1.toNat)))
    (Finset.Ico start (start + count)) ?_ ?_
  · rw [List.map_map] at hpart
    simp only [Function.comp_def] at hpart
    rw [hpart, Nat.card_Ico]
    omega
  · rw [List.pairwise_map]
    refine hipw.imp_of_mem ?_
    intro r r' hr hr' hd
    obtain ⟨h0, hl⟩ := hival r hr
    obtain ⟨h0', hl'⟩ := hival r' hr'
    simp only []
    omega
  · intro x hx
    obtain ⟨hx1, hx2⟩ := Finset.mem_Ico.mp hx
    obtain ⟨r, hr, hrx⟩ := hicov x (by omega)
    obtain ⟨h0, hl⟩ := hival r hr
    refine ⟨(r.1.toNat, r.2.1.toNat), List.mem_map_of_mem _ hr, ?_⟩
    simp only []
    omega

/-- C1 counterexample: a valid request with `start = 0`, `count = 1`,
`contextCount = 2` (forced LTR) returns an advances array of length 1 — the
sub-window length `count` — not `contextCount = 2` as the claim states. -/
theorem C1_advances_length_counterexample :
    ((getValue exShape exBidi 0 exValueSize ⟨[], 0, 100⟩ exPaint [65, 66] 0 1 2
        4).toOption.map (fun r => r.1.advances.length)) = some 1 ∧ (1 : Nat) ≠ 2 := by
  decide

/-- C1 (amended): for every valid request (`start + count ≤ contextCount`)
whose bidi resolution — when it is consulted and succeeds with multiple
runs — is a well-formed partition of the context, the returned value's
advances array has length `count`, one slot per character of the requested
sub-window (slot `i` is run-relative, corresponding to context position
`start + i` in the single-run path); out-of-window context positions are not
represented at all, so the array length is `count`, not `contextCount`. -/
theorem C1_advances_length
    (shape : PaintRec → List Nat → Bool → List ScriptRunResult)
    (bidiOracle : List Nat → Nat → Nat → BidiEnv)
    (paint : PaintRec) (chars : List Nat)
    (start count contextCount : Nat) (dirFlags : Int)
    (hvalid : start + count ≤ contextCount)
    (hbidi : BidiWF (bidiOracle chars contextCount (bidiReqOf dirFlags)) contextCount) :
    (computeValues shape bidiOracle paint chars start count contextCount
        dirFlags).advances.length = count := by
  unfold computeValues
  by_cases hc : count = 0
  · simp [hc]
  · rw [if_neg hc]
    obtain ⟨cs, hcs, hsum⟩ := bidi_clipped_sum
      (bidiOracle chars contextCount (bidiReqOf dirFlags)) contextCount start count
      hbidi hvalid
    cases hplan : resolveRunPlan dirFlags
        (bidiOracle chars contextCount (bidiReqOf dirFlags)) start count with
    | single r =>
      simp only [hplan]
      rw [computeRunValues_length]
      simp
    | multi rs =>
      simp only [hplan]
      rw [foldl_computeRunValues_length]
      have hrs : rs = cs := by
        unfold resolveRunPlan at hplan
        rw [hcs] at hplan
        repeat
          first
          | exact RunPlan.noConfusion hplan
          | (injection hplan with h; exact h.symm)
          | split at hplan
      rw [hrs]
      simpa using hsum

/-- Witness for C1 at a concrete single-run request. -/
theorem C1_advances_length_witness :
    0 + 1 ≤ 1 ∧ BidiWF (exBidi [65] 1 (bidiReqOf 0)) 1 ∧
      (computeValues exShape exBidi exPaint [65] 0 1 1 0).advances.length = 1 :=
  ⟨by decide, by decide,
    C1_advances_length exShape exBidi exPaint [65] 0 1 1 0 (by decide) (by decide)⟩

end TextLayoutCacheModel
